import Mathlib

/-!
Verification of the incremental synchronization engine of meilisearch-md.

The development shallowly embeds the core services:
  - src/src/services/parser.ts (parseDocument and the id sanitizer);
  - src/src/services/indexing.ts (loadMetadata, incrementalIndex, fullIndex);
  - src/src/services/meilisearch.ts (waitForTask and the remote-call layer);
  - main.ts (removeFromIndex, the delete-event handler).

External collaborators (the SHA-256 digest, the frontmatter regex engine, the
YAML parser, the wall clock) are parameters of the model, collected in `Env`.
The remote service is modelled by boolean outcomes for the batched calls the
engine makes; the list of remote calls actually submitted is an observable of
each modelled run.
-/

namespace MeilisearchMd

/-- Frontmatter mapping as produced by the external YAML parser. -/
abbrev Frontmatter := List (String × String)

/-- FileMetadata (src/src/types.ts): one entry per synchronized document. -/
structure FileMetadata where
  path : String
  hash : String
  meilisearchId : String
  indexedAt : Nat
deriving DecidableEq, Repr

/-- The host's file handle: stable path and display basename. -/
structure TFile where
  path : String
  basename : String
deriving DecidableEq, Repr

/-- DocumentData (src/src/types.ts): the payload sent to the remote index. -/
structure DocumentData where
  id : String
  name : String
  path : String
  frontmatter : Frontmatter
  content : String
  hash : String
deriving DecidableEq, Repr

/-- One vault file together with the content the engine reads for it. -/
structure VFile where
  file : TFile
  content : String
deriving DecidableEq, Repr

/-- Parameters supplied by external collaborators:
`hash` models generateHash (src/utils/hash.ts), a deterministic digest;
`matchFm` models the frontmatter regex match of parser.ts, none when the
regex does not match and some (g1, g2) for capture groups 1 (header block)
and 2 (body); `parseYaml` models obsidian's parseYaml, none when it throws;
`now` models Date.now(). -/
structure Env where
  hash : String → String
  matchFm : String → Option (String × String)
  parseYaml : String → Option Frontmatter
  now : Nat

/-- Character class kept by the id sanitizer (parser.ts line 39): the regex
replaces every character outside a-zA-Z0-9, hyphen and underscore. -/
def isIdChar (c : Char) : Bool :=
  ('a' ≤ c && c ≤ 'z') || ('A' ≤ c && c ≤ 'Z') || ('0' ≤ c && c ≤ '9') || c == '-' || c == '_'

/-- Sanitized document id (parser.ts line 39): placeholder substitution,
applied character by character as the global regex replace does. -/
def sanitizeId (path : String) : String :=
  String.mk (path.data.map fun c => if isIdChar c then c else '_')

/-- parseDocument (src/src/services/parser.ts). A throwing YAML parse is
caught in the source and replaced by the empty mapping; the regex match
result decides whether the header region is stripped from the content. -/
def parseDocument (env : Env) (file : TFile) (content : String) : DocumentData :=
  let fm : Frontmatter × String :=
    match env.matchFm content with
    | some (fmContent, body) =>
        (match env.parseYaml fmContent with
         | some f => f
         | none => [], body)
    | none => ([], content)
  { id := sanitizeId file.path
    name := file.basename
    path := file.path
    frontmatter := fm.1
    content := fm.2
    hash := env.hash content }

/-- True when parser.ts logs the frontmatter diagnostic: the header region
matched but the YAML parser threw. -/
def parseWarns (env : Env) (content : String) : Bool :=
  match env.matchFm content with
  | some (fmContent, _) => (env.parseYaml fmContent).isNone
  | none => false

/-- In-memory metadata mapping, modelling the JS Map fileMetadata:
insertion-ordered entries with unique keys. -/
abbrev MetaMap := List (String × FileMetadata)

/-- Map.get: the first entry stored under the key. -/
def MetaMap.get : MetaMap → String → Option FileMetadata
  | [], _ => none
  | (k, v) :: rest, p => if k = p then some v else MetaMap.get rest p

/-- Map.set: replace in place when the key exists, append otherwise. -/
def MetaMap.set : MetaMap → String → FileMetadata → MetaMap
  | [], k, v => [(k, v)]
  | (k', v') :: rest, k, v =>
      if k' = k then (k, v) :: rest else (k', v') :: MetaMap.set rest k v

/-- Keys of the mapping in insertion order. -/
def MetaMap.keys (m : MetaMap) : List String := m.map Prod.fst

/-- Map.delete. -/
def MetaMap.eraseKey (m : MetaMap) (k : String) : MetaMap :=
  m.filter fun e => decide (e.1 ≠ k)

/-- Invariant: every metadata entry is stored under its own path field. -/
def MetaMap.Inv (m : MetaMap) : Prop := ∀ e ∈ m, e.2.path = e.1

/-- Remote operations submitted through MeilisearchService. -/
inductive RemoteCall
  | deleteDocuments (ids : List String)
  | indexDocuments (docs : List DocumentData)
  | clearIndex
deriving DecidableEq, Repr

/-- Outcome of one getTask poll: the status the remote service reports, or a
thrown network error on the poll itself. -/
inductive PollResult
  | succeeded
  | failed (msg : String)
  | processing
  | pollError
deriving DecidableEq, Repr

/-- Timeout message thrown by waitForTask (meilisearch.ts line 223);
maxAttempts is 600 there. -/
def timeoutMsg (taskUid : Nat) : String :=
  "Task " ++ toString taskUid ++ " did not complete within 600 seconds"

/-- Loop of waitForTask (meilisearch.ts lines 203-221). One round polls the
task; on succeeded it returns. A failed status makes the source throw inside
its own try block, so the surrounding catch swallows that error, increments
attempts and re-enters the loop - exactly as it does for a processing status
or a network error on the poll. The second component counts polls made. -/
def waitAux (taskUid : Nat) (poll : Nat → PollResult) :
    Nat → Nat → Except String Unit × Nat
  | attempts, 0 => (Except.error (timeoutMsg taskUid), attempts)
  | attempts, fuel + 1 =>
      match poll attempts with
      | PollResult.succeeded => (Except.ok (), attempts + 1)
      | _ => waitAux taskUid poll (attempts + 1) fuel

/-- waitForTask (src/src/services/meilisearch.ts lines 197-224). -/
def waitForTask (taskUid : Nat) (poll : Nat → PollResult) : Except String Unit × Nat :=
  waitAux taskUid poll 0 600

/-- Persisted metadata record as loadMetadata observes it: the file may be
absent, present but unparseable (JSON.parse throws), or parse to entries. -/
inductive MetadataRecord
  | absent
  | corrupt (raw : String)
  | valid (entries : List FileMetadata)

/-- Result of loadMetadata: the in-memory mapping afterwards and whether an
error notice was shown. The source function always returns normally. -/
structure LoadResult where
  meta : MetaMap
  errorShown : Bool
deriving DecidableEq, Repr

/-- loadMetadata (indexing.ts lines 24-42). On a corrupt record the source
catches the JSON.parse error, shows an error notice and returns normally,
leaving fileMetadata as it was (empty at startup); on an absent record it
returns without touching fileMetadata; on a valid record it rebuilds the
map from the entries, keyed by each entry's path field. -/
def loadMetadata (prev : MetaMap) : MetadataRecord → LoadResult
  | MetadataRecord.absent => ⟨prev, false⟩
  | MetadataRecord.corrupt _ => ⟨prev, true⟩
  | MetadataRecord.valid entries =>
      ⟨entries.foldl (fun m e => MetaMap.set m e.path e) [], false⟩

/-- Fresh metadata entry written for an added or modified file
(indexing.ts lines 99-104 and 109-114). -/
def newEntry (env : Env) (f : VFile) : FileMetadata :=
  { path := f.file.path
    hash := env.hash f.content
    meilisearchId := (parseDocument env f.file f.content).id
    indexedAt := env.now }

/-- State after the scan loop of an incremental run. -/
structure ScanResult where
  meta : MetaMap
  adds : List DocumentData
  upds : List DocumentData
deriving Repr

/-- Scan loop of incrementalIndex (indexing.ts lines 83-118): hash each file,
classify it against the evolving metadata map, parse only added and modified
files, and optimistically write their new metadata entries. -/
def scanFiles (env : Env) : MetaMap → List VFile → ScanResult
  | m, [] => ⟨m, [], []⟩
  | m, f :: fs =>
      match MetaMap.get m f.file.path with
      | none =>
          let doc := parseDocument env f.file f.content
          let r := scanFiles env (MetaMap.set m f.file.path (newEntry env f)) fs
          ⟨r.meta, doc :: r.adds, r.upds⟩
      | some md =>
          if md.hash ≠ env.hash f.content then
            let doc := parseDocument env f.file f.content
            let r := scanFiles env (MetaMap.set m f.file.path (newEntry env f)) fs
            ⟨r.meta, r.adds, doc :: r.upds⟩
          else
            scanFiles env m fs

/-- Remote outcomes for the three conditional batch submissions of an
incremental cycle, in submission order. -/
structure RemoteOutcomes where
  delOk : Bool
  addOk : Bool
  updOk : Bool
deriving DecidableEq, Repr

/-- Batch submission phase (indexing.ts lines 129-143): deletions, then
additions, then modifications, each batch only when nonempty; a failing
batch throws, so later batches are not attempted and the phase reports
failure. Returns the calls actually submitted and the completion flag. -/
def submitPhase (dels : List String) (adds upds : List DocumentData)
    (oc : RemoteOutcomes) : List RemoteCall × Bool :=
  let c1 : List RemoteCall :=
    if dels.isEmpty then [] else [RemoteCall.deleteDocuments dels]
  if !dels.isEmpty && !oc.delOk then (c1, false)
  else
    let c2 : List RemoteCall :=
      if adds.isEmpty then [] else [RemoteCall.indexDocuments adds]
    if !adds.isEmpty && !oc.addOk then (c1 ++ c2, false)
    else
      let c3 : List RemoteCall :=
        if upds.isEmpty then [] else [RemoteCall.indexDocuments upds]
      if !upds.isEmpty && !oc.updOk then (c1 ++ c2 ++ c3, false)
      else (c1 ++ c2 ++ c3, true)

/-- Observables of one incremental run. -/
structure IncrResult where
  meta : MetaMap
  addedDocs : List DocumentData
  updatedDocs : List DocumentData
  deletedIds : List String
  deletedPaths : List String
  calls : List RemoteCall
  savedMeta : Option MetaMap
  ok : Bool
deriving Repr

/-- incrementalIndex (indexing.ts lines 65-164). The scan classifies files
and optimistically rewrites their metadata; the deleted scan (lines 121-127)
removes every entry whose path no longer exists, collecting the stored
meilisearchIds for the delete batch; the batches are submitted in order,
and saveMetadata (line 145) runs only when no batch threw. -/
def incrementalIndex (env : Env) (oc : RemoteOutcomes) (meta0 : MetaMap)
    (files : List VFile) : IncrResult :=
  let s := scanFiles env meta0 files
  let D : List String := files.map fun f => f.file.path
  let stale := s.meta.filter fun e => decide (e.1 ∉ D)
  let meta1 := s.meta.filter fun e => decide (e.1 ∈ D)
  let dels := stale.map fun e => e.2.meilisearchId
  let sub := submitPhase dels s.adds s.upds oc
  { meta := meta1
    addedDocs := s.adds
    updatedDocs := s.upds
    deletedIds := dels
    deletedPaths := stale.map fun e => e.1
    calls := sub.1
    savedMeta := if sub.2 then some meta1 else none
    ok := sub.2 }

/-- Observables of one full-reindex run. -/
structure FullResult where
  meta : MetaMap
  docs : List DocumentData
  calls : List RemoteCall
  savedMeta : Option MetaMap
  ok : Bool
deriving Repr

/-- Scan loop of fullIndex (indexing.ts lines 189-210): parse every file and
write its metadata entry into the freshly reset map. -/
def fullScan (env : Env) : List VFile → MetaMap → List DocumentData × MetaMap
  | [], m => ([], m)
  | f :: fs, m =>
      let doc := parseDocument env f.file f.content
      let r := fullScan env fs (MetaMap.set m f.file.path
        { path := f.file.path, hash := doc.hash, meilisearchId := doc.id,
          indexedAt := env.now })
      (doc :: r.1, r.2)

/-- fullIndex (indexing.ts lines 169-237): clear the remote index, then reset
the in-memory metadata, then treat every file as added and submit one batch.
A failing clearIndex throws at line 180, before the reset at line 181, so
the cycle aborts with nothing submitted and the metadata untouched; a
failing document batch skips saveMetadata. -/
def fullIndex (env : Env) (clearOk indexOk : Bool) (meta0 : MetaMap)
    (files : List VFile) : FullResult :=
  if clearOk then
    let r := fullScan env files []
    if r.1.isEmpty then
      ⟨r.2, r.1, [RemoteCall.clearIndex], some r.2, true⟩
    else if indexOk then
      ⟨r.2, r.1, [RemoteCall.clearIndex, RemoteCall.indexDocuments r.1],
        some r.2, true⟩
    else
      ⟨r.2, r.1, [RemoteCall.clearIndex, RemoteCall.indexDocuments r.1],
        none, false⟩
  else
    ⟨meta0, [], [RemoteCall.clearIndex], none, false⟩

/-- Observables of the delete-event handler. -/
structure RemoveResult where
  call : RemoteCall
  meta : MetaMap
deriving DecidableEq, Repr

/-- removeFromIndex (main.ts lines 200-210), the delete-event mode: it calls
deleteDocuments with the raw vault path of the deleted file, then drops the
metadata entry. The removeFileMetadata helper it calls is not present under
src; dropping the entry stored at the path is modelled from the spec's
Metadata lifecycle. -/
def removeFromIndex (meta : MetaMap) (file : TFile) : RemoveResult :=
  ⟨RemoteCall.deleteDocuments [file.path], MetaMap.eraseKey meta file.path⟩

/-- Paths of the current vault enumeration. -/
def vaultPaths (files : List VFile) : List String := files.map fun f => f.file.path

/-- Paths classified added by an incremental run. -/
def addedPaths (r : IncrResult) : List String := r.addedDocs.map DocumentData.path

/-- Paths classified modified by an incremental run. -/
def modifiedPaths (r : IncrResult) : List String := r.updatedDocs.map DocumentData.path

/-- Paths the incremental scan skipped: present in the vault and classified
neither added nor modified (the spec's remainder class). -/
def unchangedPaths (r : IncrResult) (files : List VFile) : List String :=
  (vaultPaths files).filter fun p => decide (p ∉ addedPaths r ∧ p ∉ modifiedPaths r)

/-- Diff classification specification: the four classes computed by an
incremental run, characterized against the prior metadata and the current
vault, together with the statement that they partition the union of the two
path sets with no overlap and no omission. -/
def DiffSpec (env : Env) (meta0 : MetaMap) (files : List VFile) (r : IncrResult) : Prop :=
  (∀ p, p ∈ addedPaths r ↔ p ∈ vaultPaths files ∧ MetaMap.get meta0 p = none) ∧
  (∀ p, p ∈ modifiedPaths r ↔ ∃ f ∈ files, f.file.path = p ∧
      ∃ md, MetaMap.get meta0 p = some md ∧ md.hash ≠ env.hash f.content) ∧
  (∀ p, p ∈ unchangedPaths r files ↔ ∃ f ∈ files, f.file.path = p ∧
      ∃ md, MetaMap.get meta0 p = some md ∧ md.hash = env.hash f.content) ∧
  (∀ p, p ∈ r.deletedPaths ↔ p ∈ MetaMap.keys meta0 ∧ p ∉ vaultPaths files) ∧
  (∀ p, p ∈ MetaMap.keys meta0 ∨ p ∈ vaultPaths files ↔
      p ∈ addedPaths r ∨ p ∈ modifiedPaths r ∨
      p ∈ unchangedPaths r files ∨ p ∈ r.deletedPaths) ∧
  (∀ p, ¬ (p ∈ addedPaths r ∧ p ∈ modifiedPaths r) ∧
      ¬ (p ∈ addedPaths r ∧ p ∈ unchangedPaths r files) ∧
      ¬ (p ∈ addedPaths r ∧ p ∈ r.deletedPaths) ∧
      ¬ (p ∈ modifiedPaths r ∧ p ∈ unchangedPaths r files) ∧
      ¬ (p ∈ modifiedPaths r ∧ p ∈ r.deletedPaths) ∧
      ¬ (p ∈ unchangedPaths r files ∧ p ∈ r.deletedPaths))

/-- The modified-classification test of the scan, as a function of the prior
metadata (proof-layer observable). -/
def isModified (env : Env) (meta0 : MetaMap) (f : VFile) : Bool :=
  match MetaMap.get meta0 f.file.path with
  | some md => decide (md.hash ≠ env.hash f.content)
  | none => false

/-- Concrete environment for witnesses: identity digest, no frontmatter
header, failing YAML parser, clock at 0. -/
def envW : Env := ⟨fun s => s, fun _ => none, fun _ => none, 0⟩

/-- Concrete prior metadata for witnesses: one entry that will be modified,
one that will be unchanged, one whose path is gone from the vault. -/
def metaW : MetaMap :=
  [("c.md", ⟨"c.md", "old", "c_md", 0⟩),
   ("d.md", ⟨"d.md", "same", "d_md", 0⟩),
   ("gone.md", ⟨"gone.md", "x", "gone_md", 0⟩)]

/-- Concrete vault for witnesses: one new file, one modified file, one
unchanged file. -/
def filesW : List VFile :=
  [⟨⟨"a.md", "a"⟩, "new"⟩, ⟨⟨"c.md", "c"⟩, "changed"⟩, ⟨⟨"d.md", "d"⟩, "same"⟩]

/-- Concrete prior metadata for the partial-failure scenario: one deleted
path (its batch succeeds) and one modified path (its batch is never
attempted). -/
def metaC4 : MetaMap :=
  [("gone.md", ⟨"gone.md", "x", "gone_md", 0⟩),
   ("c.md", ⟨"c.md", "old", "c_md", 0⟩)]

/-- Concrete vault for the partial-failure scenario: one added file (its
batch fails) and one modified file. -/
def filesC4 : List VFile :=
  [⟨⟨"b.md", "b"⟩, "bc"⟩, ⟨⟨"c.md", "c"⟩, "newc"⟩]

/-! Basic lemmas about the metadata map operations. -/

theorem MetaMap.get_set (m : MetaMap) (k : String) (v : FileMetadata) (p : String) :
    MetaMap.get (MetaMap.set m k v) p = if k = p then some v else MetaMap.get m p := by
  induction m with
  | nil => by_cases h : k = p <;> simp [MetaMap.set, MetaMap.get, h]
  | cons e rest ih =>
      obtain ⟨k', v'⟩ := e
      by_cases hk : k' = k
      · subst hk
        simp only [MetaMap.set, if_pos rfl]
        by_cases hp : k' = p <;> simp [MetaMap.get, hp]
      · simp only [MetaMap.set, if_neg hk, MetaMap.get, ih]
        by_cases hp : k' = p <;> by_cases hkp : k = p <;> simp_all

theorem MetaMap.get_eq_none_iff (m : MetaMap) (p : String) :
    MetaMap.get m p = none ↔ p ∉ MetaMap.keys m := by
  induction m with
  | nil => simp [MetaMap.get, MetaMap.keys]
  | cons e rest ih =>
      obtain ⟨k, v⟩ := e
      by_cases h : k = p
      · subst h; simp [MetaMap.get, MetaMap.keys]
      · simp only [MetaMap.get, if_neg h, ih, MetaMap.keys, List.map_cons,
          List.mem_cons, not_or]
        constructor
        · intro hn
          exact ⟨fun hpk => h hpk.symm, hn⟩
        · intro hn
          exact hn.2

theorem MetaMap.get_mem {m : MetaMap} {p : String} {v : FileMetadata}
    (h : MetaMap.get m p = some v) : (p, v) ∈ m := by
  induction m with
  | nil => simp [MetaMap.get] at h
  | cons e rest ih =>
      obtain ⟨k, v'⟩ := e
      simp only [MetaMap.get] at h
      by_cases hk : k = p
      · rw [if_pos hk] at h
        injection h with h
        subst h; subst hk
        exact List.mem_cons_self _ _
      · rw [if_neg hk] at h
        exact List.mem_cons_of_mem _ (ih h)

theorem MetaMap.get_filter (q : String → Bool) (m : MetaMap) (p : String) :
    MetaMap.get (m.filter fun e => q e.1) p
      = if q p then MetaMap.get m p else none := by
  induction m with
  | nil => by_cases h : q p <;> simp [MetaMap.get, h]
  | cons e rest ih =>
      obtain ⟨k, v⟩ := e
      by_cases hq : q k
      · rw [List.filter_cons_of_pos (by simpa using hq)]
        by_cases hk : k = p
        · subst hk; simp [MetaMap.get, hq]
        · simp [MetaMap.get, hk, ih]
      · rw [List.filter_cons_of_neg (by simpa using hq)]
        by_cases hk : k = p
        · subst hk; simp [MetaMap.get, ih, hq]
        · simp [MetaMap.get, hk, ih]

theorem MetaMap.mem_map_fst_filter (q : String → Bool) (m : MetaMap) (p : String) :
    p ∈ (m.filter fun e => q e.1).map Prod.fst ↔ p ∈ MetaMap.keys m ∧ q p := by
  simp only [List.mem_map, List.mem_filter, MetaMap.keys]
  constructor
  · rintro ⟨e, ⟨hm, hq⟩, rfl⟩
    exact ⟨⟨e, hm, rfl⟩, hq⟩
  · rintro ⟨⟨e, hm, rfl⟩, hq⟩
    exact ⟨e, ⟨hm, hq⟩, rfl⟩

theorem MetaMap.mem_set {m : MetaMap} {k : String} {v : FileMetadata} {e : String × FileMetadata}
    (h : e ∈ MetaMap.set m k v) : e = (k, v) ∨ e ∈ m := by
  induction m with
  | nil => simpa [MetaMap.set] using h
  | cons e' rest ih =>
      obtain ⟨k', v'⟩ := e'
      simp only [MetaMap.set] at h
      by_cases hk : k' = k
      · rw [if_pos hk] at h
        rcases List.mem_cons.mp h with h | h
        · exact Or.inl h
        · exact Or.inr (List.mem_cons_of_mem _ h)
      · rw [if_neg hk] at h
        rcases List.mem_cons.mp h with h | h
        · exact Or.inr (h ▸ List.mem_cons_self _ _)
        · rcases ih h with h' | h'
          · exact Or.inl h'
          · exact Or.inr (List.mem_cons_of_mem _ h')

theorem MetaMap.Inv.set {m : MetaMap} (hm : MetaMap.Inv m) {k : String}
    {v : FileMetadata} (hv : v.path = k) : MetaMap.Inv (MetaMap.set m k v) := by
  intro e he
  rcases MetaMap.mem_set he with h | h
  · subst h; exact hv
  · exact hm e h

theorem MetaMap.Inv.filter {m : MetaMap} (hm : MetaMap.Inv m)
    (q : String × FileMetadata → Bool) : MetaMap.Inv (m.filter q) :=
  fun e he => hm e (List.mem_filter.mp he).1

/-! Characterization of the incremental scan loop. -/

theorem vfile_eq_of_path_eq {files : List VFile} (hN : (vaultPaths files).Nodup)
    {f g : VFile} (hf : f ∈ files) (hg : g ∈ files)
    (h : f.file.path = g.file.path) : f = g :=
  List.inj_on_of_nodup_map (by simpa [vaultPaths] using hN) hf hg h

theorem scanFiles_adds (env : Env) :
    ∀ (files : List VFile) (m : MetaMap), (vaultPaths files).Nodup →
      (scanFiles env m files).adds = files.filterMap fun f =>
        if MetaMap.get m f.file.path = none
        then some (parseDocument env f.file f.content) else none := by
  intro files
  induction files with
  | nil => intro m _; simp [scanFiles]
  | cons f fs ih =>
      intro m hN
      have hN' := (by simpa [vaultPaths] using hN :
        (∀ x ∈ fs, ¬x.file.path = f.file.path) ∧ (List.map (fun g => g.file.path) fs).Nodup)
      have hf : ∀ x ∈ fs, x.file.path ≠ f.file.path := hN'.1
      have hfs : (vaultPaths fs).Nodup := by simpa [vaultPaths] using hN'.2
      have hcongr : ∀ m' : MetaMap, (∀ g ∈ fs, MetaMap.get m' g.file.path = MetaMap.get m g.file.path) →
          (fs.filterMap fun g =>
            if MetaMap.get m' g.file.path = none
            then some (parseDocument env g.file g.content) else none)
          = fs.filterMap fun g =>
            if MetaMap.get m g.file.path = none
            then some (parseDocument env g.file g.content) else none := by
        intro m' hm'
        exact List.filterMap_congr fun g hg => by rw [hm' g hg]
      have hset : ∀ g ∈ fs,
          MetaMap.get (MetaMap.set m f.file.path (newEntry env f)) g.file.path
            = MetaMap.get m g.file.path := by
        intro g hg
        have hne : f.file.path ≠ g.file.path := fun hEq => hf g hg hEq.symm
        rw [MetaMap.get_set, if_neg hne]
      cases hget : MetaMap.get m f.file.path with
      | none =>
          simp only [scanFiles, hget]
          rw [ih _ hfs, hcongr _ hset, List.filterMap_cons]
          simp [hget]
      | some md =>
          by_cases hh : md.hash = env.hash f.content
          · simp only [scanFiles, hget, if_neg (not_not_intro hh)]
            rw [ih _ hfs, List.filterMap_cons]
            simp [hget]
          · simp only [scanFiles, hget, if_pos hh]
            rw [ih _ hfs, hcongr _ hset, List.filterMap_cons]
            simp [hget]

theorem scanFiles_upds (env : Env) :
    ∀ (files : List VFile) (m : MetaMap), (vaultPaths files).Nodup →
      (scanFiles env m files).upds = files.filterMap fun f =>
        match MetaMap.get m f.file.path with
        | some md =>
            if md.hash ≠ env.hash f.content
            then some (parseDocument env f.file f.content) else none
        | none => none := by
  intro files
  induction files with
  | nil => intro m _; simp [scanFiles]
  | cons f fs ih =>
      intro m hN
      have hN' := (by simpa [vaultPaths] using hN :
        (∀ x ∈ fs, ¬x.file.path = f.file.path) ∧ (List.map (fun g => g.file.path) fs).Nodup)
      have hf : ∀ x ∈ fs, x.file.path ≠ f.file.path := hN'.1
      have hfs : (vaultPaths fs).Nodup := by simpa [vaultPaths] using hN'.2
      have hcongr : ∀ m' : MetaMap, (∀ g ∈ fs, MetaMap.get m' g.file.path = MetaMap.get m g.file.path) →
          (fs.filterMap fun g =>
            match MetaMap.get m' g.file.path with
            | some md =>
                if md.hash ≠ env.hash g.content
                then some (parseDocument env g.file g.content) else none
            | none => none)
          = fs.filterMap fun g =>
            match MetaMap.get m g.file.path with
            | some md =>
                if md.hash ≠ env.hash g.content
                then some (parseDocument env g.file g.content) else none
            | none => none := by
        intro m' hm'
        exact List.filterMap_congr fun g hg => by rw [hm' g hg]
      have hset : ∀ g ∈ fs,
          MetaMap.get (MetaMap.set m f.file.path (newEntry env f)) g.file.path
            = MetaMap.get m g.file.path := by
        intro g hg
        have hne : f.file.path ≠ g.file.path := fun hEq => hf g hg hEq.symm
        rw [MetaMap.get_set, if_neg hne]
      cases hget : MetaMap.get m f.file.path with
      | none =>
          simp only [scanFiles, hget]
          rw [ih _ hfs, hcongr _ hset, List.filterMap_cons]
          simp [hget]
      | some md =>
          by_cases hh : md.hash = env.hash f.content
          · simp only [scanFiles, hget, if_neg (not_not_intro hh)]
            rw [ih _ hfs, List.filterMap_cons]
            simp [hget, hh]
          · simp only [scanFiles, hget, if_pos hh]
            rw [ih _ hfs, hcongr _ hset, List.filterMap_cons]
            simp [hget, hh]

theorem scanFiles_get (env : Env) :
    ∀ (files : List VFile) (m : MetaMap) (p : String), (vaultPaths files).Nodup →
      MetaMap.get (scanFiles env m files).meta p =
        match files.find? (fun f => decide (f.file.path = p)) with
        | none => MetaMap.get m p
        | some f =>
            match MetaMap.get m p with
            | none => some (newEntry env f)
            | some md =>
                if md.hash = env.hash f.content then some md
                else some (newEntry env f) := by
  intro files
  induction files with
  | nil => intro m p _; simp [scanFiles, List.find?]
  | cons f fs ih =>
      intro m p hN
      have hN' := (by simpa [vaultPaths] using hN :
        (∀ x ∈ fs, ¬x.file.path = f.file.path) ∧ (List.map (fun g => g.file.path) fs).Nodup)
      have hf : ∀ x ∈ fs, x.file.path ≠ f.file.path := hN'.1
      have hfs : (vaultPaths fs).Nodup := by simpa [vaultPaths] using hN'.2
      by_cases hp : f.file.path = p
      · subst hp
        have hfind : (f :: fs).find? (fun g => decide (g.file.path = f.file.path)) = some f := by
          simp [List.find?]
        have hfind' : fs.find? (fun g => decide (g.file.path = f.file.path)) = none :=
          List.find?_eq_none.mpr fun g hg hgp => hf g hg (by simpa using hgp)
        rw [hfind]
        cases hget : MetaMap.get m f.file.path with
        | none =>
            simp only [scanFiles, hget]
            rw [ih _ _ hfs, hfind', MetaMap.get_set, if_pos rfl]
        | some md =>
            by_cases hh : md.hash = env.hash f.content
            · simp only [scanFiles, hget, if_neg (not_not_intro hh)]
              rw [ih _ _ hfs, hfind', hget, if_pos hh]
            · simp only [scanFiles, hget, if_pos hh]
              rw [ih _ _ hfs, hfind', MetaMap.get_set, if_pos rfl, if_neg hh]
      · have hfind : (f :: fs).find? (fun g => decide (g.file.path = p))
            = fs.find? (fun g => decide (g.file.path = p)) := by
          simp [List.find?, hp]
        rw [hfind]
        have hsetp : MetaMap.get (MetaMap.set m f.file.path (newEntry env f)) p
            = MetaMap.get m p := by
          rw [MetaMap.get_set, if_neg hp]
        cases hget : MetaMap.get m f.file.path with
        | none =>
            simp only [scanFiles, hget]
            rw [ih _ _ hfs, hsetp]
        | some md =>
            by_cases hh : md.hash = env.hash f.content
            · simp only [scanFiles, hget, if_neg (not_not_intro hh)]
              rw [ih _ _ hfs]
            · simp only [scanFiles, hget, if_pos hh]
              rw [ih _ _ hfs, hsetp]

theorem scanFiles_all_unchanged (env : Env) :
    ∀ (files : List VFile) (m : MetaMap),
      (∀ f ∈ files, ∃ md, MetaMap.get m f.file.path = some md ∧
        md.hash = env.hash f.content) →
      scanFiles env m files = ⟨m, [], []⟩ := by
  intro files
  induction files with
  | nil => intro m _; simp [scanFiles]
  | cons f fs ih =>
      intro m hall
      obtain ⟨md, hget, hh⟩ := hall f (List.mem_cons_self _ _)
      simp only [scanFiles, hget, if_neg (not_not_intro hh)]
      exact ih m fun g hg => hall g (List.mem_cons_of_mem _ hg)

theorem scanFiles_inv (env : Env) :
    ∀ (files : List VFile) (m : MetaMap), MetaMap.Inv m →
      MetaMap.Inv (scanFiles env m files).meta := by
  intro files
  induction files with
  | nil => intro m hm; simpa [scanFiles] using hm
  | cons f fs ih =>
      intro m hm
      cases hget : MetaMap.get m f.file.path with
      | none =>
          simp only [scanFiles, hget]
          exact ih _ (hm.set rfl)
      | some md =>
          by_cases hh : md.hash = env.hash f.content
          · simp only [scanFiles, hget, if_neg (not_not_intro hh)]
            exact ih _ hm
          · simp only [scanFiles, hget, if_pos hh]
            exact ih _ (hm.set rfl)

/-! Helpers for the diff-classification proof. -/

theorem find?_self_of_nodup :
    ∀ (files : List VFile), (vaultPaths files).Nodup → ∀ f ∈ files,
      files.find? (fun g => decide (g.file.path = f.file.path)) = some f := by
  intro files
  induction files with
  | nil => intro _ f hf; cases hf
  | cons g fs ih =>
      intro hN f hf
      have hN' := (by simpa [vaultPaths] using hN :
        (∀ x ∈ fs, ¬x.file.path = g.file.path) ∧ (List.map (fun x => x.file.path) fs).Nodup)
      rcases List.mem_cons.mp hf with rfl | hf'
      · simp [List.find?]
      · have hne : g.file.path ≠ f.file.path := fun hEq => hN'.1 f hf' hEq.symm
        have : (g :: fs).find? (fun x => decide (x.file.path = f.file.path))
            = fs.find? (fun x => decide (x.file.path = f.file.path)) := by
          simp [List.find?, hne]
        rw [this]
        exact ih (by simpa [vaultPaths] using hN'.2) f hf'

theorem mem_map_path_filterMap_ite (files : List VFile) (C : VFile → Prop)
    [DecidablePred C] (g : VFile → DocumentData) (p : String) :
    (p ∈ (files.filterMap fun f => if C f then some (g f) else none).map
        DocumentData.path)
      ↔ ∃ f ∈ files, C f ∧ (g f).path = p := by
  simp only [List.mem_map, List.mem_filterMap]
  constructor
  · rintro ⟨d, ⟨f, hf, hd⟩, rfl⟩
    by_cases hC : C f
    · rw [if_pos hC] at hd
      injection hd with hd
      subst hd
      exact ⟨f, hf, hC, rfl⟩
    · rw [if_neg hC] at hd; cases hd
  · rintro ⟨f, hf, hC, rfl⟩
    exact ⟨g f, ⟨f, hf, by rw [if_pos hC]⟩, rfl⟩

theorem isModified_iff (env : Env) (meta0 : MetaMap) (f : VFile) :
    isModified env meta0 f = true ↔
      ∃ md, MetaMap.get meta0 f.file.path = some md ∧ md.hash ≠ env.hash f.content := by
  cases hg : MetaMap.get meta0 f.file.path with
  | none => simp [isModified, hg]
  | some md => simp [isModified, hg]

theorem upds_fun_eq_ite (env : Env) (meta0 : MetaMap) (f : VFile) :
    (match MetaMap.get meta0 f.file.path with
      | some md =>
          if md.hash ≠ env.hash f.content
          then some (parseDocument env f.file f.content) else none
      | none => none)
      = if isModified env meta0 f then some (parseDocument env f.file f.content)
        else none := by
  cases hg : MetaMap.get meta0 f.file.path with
  | none => simp [isModified, hg]
  | some md =>
      by_cases hh : md.hash = env.hash f.content
      · simp [isModified, hg, hh]
      · simp [isModified, hg, hh]

theorem parseDocument_path (env : Env) (file : TFile) (content : String) :
    (parseDocument env file content).path = file.path := rfl

theorem parseDocument_id (env : Env) (file : TFile) (content : String) :
    (parseDocument env file content).id = sanitizeId file.path := rfl

theorem MetaMap.mem_keys_iff (m : MetaMap) (p : String) :
    p ∈ MetaMap.keys m ↔ MetaMap.get m p ≠ none := by
  rw [Ne, MetaMap.get_eq_none_iff, not_not]

/-! Membership characterizations of the four classes of an incremental run. -/

theorem mem_addedPaths_iff (env : Env) (oc : RemoteOutcomes) (meta0 : MetaMap)
    (files : List VFile) (hN : (vaultPaths files).Nodup) (p : String) :
    p ∈ addedPaths (incrementalIndex env oc meta0 files) ↔
      p ∈ vaultPaths files ∧ MetaMap.get meta0 p = none := by
  have h1 : addedPaths (incrementalIndex env oc meta0 files)
      = (scanFiles env meta0 files).adds.map DocumentData.path := rfl
  rw [h1, scanFiles_adds env files meta0 hN,
    mem_map_path_filterMap_ite files (fun f => MetaMap.get meta0 f.file.path = none)]
  constructor
  · rintro ⟨f, hf, hC, hp⟩
    rw [parseDocument_path] at hp
    subst hp
    exact ⟨List.mem_map_of_mem _ hf, hC⟩
  · rintro ⟨hpD, hget⟩
    obtain ⟨f, hf, rfl⟩ :=
      List.mem_map.mp (show p ∈ files.map (fun f => f.file.path) from hpD)
    exact ⟨f, hf, hget, parseDocument_path _ _ _⟩

theorem mem_modifiedPaths_iff (env : Env) (oc : RemoteOutcomes) (meta0 : MetaMap)
    (files : List VFile) (hN : (vaultPaths files).Nodup) (p : String) :
    p ∈ modifiedPaths (incrementalIndex env oc meta0 files) ↔
      ∃ f ∈ files, f.file.path = p ∧
        ∃ md, MetaMap.get meta0 p = some md ∧ md.hash ≠ env.hash f.content := by
  have h1 : modifiedPaths (incrementalIndex env oc meta0 files)
      = (scanFiles env meta0 files).upds.map DocumentData.path := rfl
  rw [h1, scanFiles_upds env files meta0 hN]
  have h2 : (files.filterMap fun f =>
      match MetaMap.get meta0 f.file.path with
      | some md =>
          if md.hash ≠ env.hash f.content
          then some (parseDocument env f.file f.content) else none
      | none => none)
      = files.filterMap fun f =>
          if isModified env meta0 f = true
          then some (parseDocument env f.file f.content) else none := by
    refine List.filterMap_congr fun f _ => ?_
    rw [upds_fun_eq_ite]
  rw [h2, mem_map_path_filterMap_ite files (fun f => isModified env meta0 f = true)]
  constructor
  · rintro ⟨f, hf, hC, hp⟩
    rw [parseDocument_path] at hp
    subst hp
    obtain ⟨md, hmd, hne⟩ := (isModified_iff env meta0 f).mp hC
    exact ⟨f, hf, rfl, md, hmd, hne⟩
  · rintro ⟨f, hf, rfl, md, hmd, hne⟩
    exact ⟨f, hf, (isModified_iff env meta0 f).mpr ⟨md, hmd, hne⟩,
      parseDocument_path _ _ _⟩

theorem mem_deletedPaths_aux (m : MetaMap) (D : List String) (p : String) :
    (p ∈ (m.filter fun e => decide (e.1 ∉ D)).map Prod.fst) ↔
      p ∈ MetaMap.keys m ∧ p ∉ D := by
  simpa using MetaMap.mem_map_fst_filter (fun x => decide (x ∉ D)) m p

theorem scan_keys_iff_of_not_mem (env : Env) (meta0 : MetaMap) (files : List VFile)
    (hN : (vaultPaths files).Nodup) (p : String) (hnD : p ∉ vaultPaths files) :
    p ∈ MetaMap.keys (scanFiles env meta0 files).meta ↔ p ∈ MetaMap.keys meta0 := by
  have hfind : files.find? (fun f => decide (f.file.path = p)) = none :=
    List.find?_eq_none.mpr fun g hg hgp =>
      hnD ((by simpa using hgp : g.file.path = p) ▸ List.mem_map_of_mem _ hg)
  have hg := scanFiles_get env files meta0 p hN
  rw [hfind] at hg
  rw [MetaMap.mem_keys_iff, MetaMap.mem_keys_iff, hg]

theorem mem_deletedPaths_iff (env : Env) (oc : RemoteOutcomes) (meta0 : MetaMap)
    (files : List VFile) (hN : (vaultPaths files).Nodup) (p : String) :
    p ∈ (incrementalIndex env oc meta0 files).deletedPaths ↔
      p ∈ MetaMap.keys meta0 ∧ p ∉ vaultPaths files := by
  have h1 : (incrementalIndex env oc meta0 files).deletedPaths
      = ((scanFiles env meta0 files).meta.filter fun e =>
          decide (e.1 ∉ files.map fun f => f.file.path)).map Prod.fst := rfl
  rw [h1, mem_deletedPaths_aux]
  constructor
  · rintro ⟨hk, hnD⟩
    exact ⟨(scan_keys_iff_of_not_mem env meta0 files hN p hnD).mp hk, hnD⟩
  · rintro ⟨hk, hnD⟩
    exact ⟨(scan_keys_iff_of_not_mem env meta0 files hN p hnD).mpr hk, hnD⟩

theorem mem_unchangedPaths_iff (env : Env) (oc : RemoteOutcomes) (meta0 : MetaMap)
    (files : List VFile) (hN : (vaultPaths files).Nodup) (p : String) :
    p ∈ unchangedPaths (incrementalIndex env oc meta0 files) files ↔
      ∃ f ∈ files, f.file.path = p ∧
        ∃ md, MetaMap.get meta0 p = some md ∧ md.hash = env.hash f.content := by
  simp only [unchangedPaths, List.mem_filter, decide_eq_true_eq]
  constructor
  · rintro ⟨hpD, hna, hnm⟩
    obtain ⟨f, hf, rfl⟩ :=
      List.mem_map.mp (show _ ∈ files.map (fun f => f.file.path) from hpD)
    cases hg : MetaMap.get meta0 f.file.path with
    | none => exact absurd ((mem_addedPaths_iff env oc meta0 files hN _).mpr
        ⟨hpD, hg⟩) hna
    | some md =>
        by_cases hh : md.hash = env.hash f.content
        · exact ⟨f, hf, rfl, md, rfl, hh⟩
        · exact absurd ((mem_modifiedPaths_iff env oc meta0 files hN _).mpr
            ⟨f, hf, rfl, md, hg, hh⟩) hnm
  · rintro ⟨f, hf, rfl, md, hg, hh⟩
    refine ⟨List.mem_map_of_mem _ hf, ?_, ?_⟩
    · intro ha
      obtain ⟨_, hnone⟩ := (mem_addedPaths_iff env oc meta0 files hN _).mp ha
      rw [hg] at hnone
      cases hnone
    · intro hm
      obtain ⟨g, hgmem, hgp, md', hmd', hne⟩ :=
        (mem_modifiedPaths_iff env oc meta0 files hN _).mp hm
      have hgf : g = f := vfile_eq_of_path_eq hN hgmem hf hgp
      subst hgf
      rw [hg] at hmd'
      injection hmd' with hmd'
      subst hmd'
      exact hne hh

/-! Claim theorems. -/

/-- C1: for every prior metadata mapping and current document set (with the
vault's guarantee of distinct paths), the incremental cycle classifies each
path exactly as the spec's diff does - added iff present locally with no
prior entry, modified iff present with a differing stored hash, unchanged
iff present with an identical stored hash, deleted iff only in the prior
mapping - and the four classes partition the union of the two path sets with
no overlap and no omission. -/
theorem incrementalIndex_diff_correct (env : Env) (oc : RemoteOutcomes)
    (meta0 : MetaMap) (files : List VFile) (hN : (vaultPaths files).Nodup) :
    DiffSpec env meta0 files (incrementalIndex env oc meta0 files) := by
  have hA := mem_addedPaths_iff env oc meta0 files hN
  have hM := mem_modifiedPaths_iff env oc meta0 files hN
  have hU := mem_unchangedPaths_iff env oc meta0 files hN
  have hDel := mem_deletedPaths_iff env oc meta0 files hN
  refine ⟨hA, hM, hU, hDel, ?_, ?_⟩
  · intro p
    constructor
    · intro hor
      by_cases hD : p ∈ vaultPaths files
      · obtain ⟨f, hf, rfl⟩ :=
          List.mem_map.mp (show p ∈ files.map (fun f => f.file.path) from hD)
        cases hg : MetaMap.get meta0 f.file.path with
        | none => exact Or.inl ((hA _).mpr ⟨hD, hg⟩)
        | some md =>
            by_cases hh : md.hash = env.hash f.content
            · exact Or.inr (Or.inr (Or.inl ((hU _).mpr ⟨f, hf, rfl, md, hg, hh⟩)))
            · exact Or.inr (Or.inl ((hM _).mpr ⟨f, hf, rfl, md, hg, hh⟩))
      · rcases hor with hk | hD'
        · exact Or.inr (Or.inr (Or.inr ((hDel _).mpr ⟨hk, hD⟩)))
        · exact absurd hD' hD
    · rintro (h | h | h | h)
      · exact Or.inr ((hA _).mp h).1
      · obtain ⟨f, hf, rfl, _⟩ := (hM _).mp h
        exact Or.inr (List.mem_map_of_mem _ hf)
      · obtain ⟨f, hf, rfl, _⟩ := (hU _).mp h
        exact Or.inr (List.mem_map_of_mem _ hf)
      · exact Or.inl ((hDel _).mp h).1
  · intro p
    refine ⟨?_, ?_, ?_, ?_, ?_, ?_⟩
    · rintro ⟨h1, h2⟩
      obtain ⟨_, hnone⟩ := (hA _).mp h1
      obtain ⟨f, hf, rfl, md, hmd, _⟩ := (hM _).mp h2
      rw [hnone] at hmd
      cases hmd
    · rintro ⟨h1, h2⟩
      obtain ⟨_, hnone⟩ := (hA _).mp h1
      obtain ⟨f, hf, rfl, md, hmd, _⟩ := (hU _).mp h2
      rw [hnone] at hmd
      cases hmd
    · rintro ⟨h1, h2⟩
      exact ((hDel _).mp h2).2 ((hA _).mp h1).1
    · rintro ⟨h1, h2⟩
      obtain ⟨f, hf, hfp, md, hmd, hne⟩ := (hM _).mp h1
      obtain ⟨g, hg, hgp, md', hmd', heq⟩ := (hU _).mp h2
      have hfg : f = g := vfile_eq_of_path_eq hN hf hg (by rw [hfp, hgp])
      subst hfg
      rw [hmd] at hmd'
      injection hmd' with h'
      subst h'
      exact hne heq
    · rintro ⟨h1, h2⟩
      obtain ⟨f, hf, hfp, _⟩ := (hM _).mp h1
      exact ((hDel _).mp h2).2 (hfp ▸ List.mem_map_of_mem _ hf)
    · rintro ⟨h1, h2⟩
      obtain ⟨f, hf, hfp, _⟩ := (hU _).mp h1
      exact ((hDel _).mp h2).2 (hfp ▸ List.mem_map_of_mem _ hf)

/-- Witness for C1 at a concrete vault exercising all four classes. -/
theorem incrementalIndex_diff_correct_witness :
    (vaultPaths filesW).Nodup ∧
      DiffSpec envW metaW filesW (incrementalIndex envW ⟨true, true, true⟩ metaW filesW) :=
  ⟨by decide, incrementalIndex_diff_correct envW ⟨true, true, true⟩ metaW filesW (by decide)⟩

theorem incrementalIndex_get_meta (env : Env) (oc : RemoteOutcomes) (meta0 : MetaMap)
    (files : List VFile) (hN : (vaultPaths files).Nodup) :
    ∀ f ∈ files, ∃ md,
      MetaMap.get (incrementalIndex env oc meta0 files).meta f.file.path = some md ∧
        md.hash = env.hash f.content := by
  intro f hf
  have hmeta : (incrementalIndex env oc meta0 files).meta
      = (scanFiles env meta0 files).meta.filter fun e =>
          decide (e.1 ∈ files.map fun g => g.file.path) := rfl
  have hD : f.file.path ∈ files.map fun g => g.file.path := List.mem_map_of_mem _ hf
  have hfilter : MetaMap.get ((scanFiles env meta0 files).meta.filter fun e =>
      decide (e.1 ∈ files.map fun g => g.file.path)) f.file.path
      = MetaMap.get (scanFiles env meta0 files).meta f.file.path := by
    have h := MetaMap.get_filter (fun x => decide (x ∈ files.map fun g => g.file.path))
      (scanFiles env meta0 files).meta f.file.path
    simpa [hD] using h
  rw [hmeta, hfilter]
  have hscan := scanFiles_get env files meta0 f.file.path hN
  rw [find?_self_of_nodup files hN f hf] at hscan
  cases hg : MetaMap.get meta0 f.file.path with
  | none =>
      simp only [hg] at hscan
      exact ⟨newEntry env f, hscan, rfl⟩
  | some md =>
      by_cases hh : md.hash = env.hash f.content
      · simp only [hg, if_pos hh] at hscan
        exact ⟨md, hscan, hh⟩
      · simp only [hg, if_neg hh] at hscan
        exact ⟨newEntry env f, hscan, rfl⟩

/-- C2: running the incremental cycle a second time with no local change in
between performs no work at all: the second run issues zero remote calls,
classifies nothing as added, modified or deleted, keeps the metadata mapping
unchanged, and completes successfully - every path's stored hash equals the
hash of its unchanged content, so every file is skipped. -/
theorem incrementalIndex_noop (env : Env) (oc : RemoteOutcomes) (m : MetaMap)
    (files : List VFile)
    (hall : ∀ f ∈ files, ∃ md, MetaMap.get m f.file.path = some md ∧
      md.hash = env.hash f.content)
    (hsub : ∀ e ∈ m, e.1 ∈ files.map fun g => g.file.path) :
    incrementalIndex env oc m files = ⟨m, [], [], [], [], [], some m, true⟩ := by
  have hscan : scanFiles env m files = ⟨m, [], []⟩ :=
    scanFiles_all_unchanged env files m hall
  have hstale : (m.filter fun e => decide (e.1 ∉ files.map fun g => g.file.path)) = [] :=
    List.filter_eq_nil_iff.mpr fun e he => by simpa using hsub e he
  have hkeep : (m.filter fun e => decide (e.1 ∈ files.map fun g => g.file.path)) = m :=
    List.filter_eq_self.mpr fun e he => by simpa using hsub e he
  unfold incrementalIndex
  simp only [hscan, hstale, hkeep, List.map_nil]
  simp [submitPhase]

theorem incrementalIndex_keys_sub (env : Env) (oc : RemoteOutcomes) (meta0 : MetaMap)
    (files : List VFile) :
    ∀ e ∈ (incrementalIndex env oc meta0 files).meta,
      e.1 ∈ files.map fun g => g.file.path := by
  intro e he
  have he' : e ∈ (scanFiles env meta0 files).meta.filter fun e =>
      decide (e.1 ∈ files.map fun g => g.file.path) := he
  have := (List.mem_filter.mp he').2
  simpa using this

theorem incrementalIndex_idempotent (env : Env) (oc1 oc2 : RemoteOutcomes)
    (meta0 : MetaMap) (files : List VFile) (hN : (vaultPaths files).Nodup) :
    incrementalIndex env oc2 (incrementalIndex env oc1 meta0 files).meta files
      = ⟨(incrementalIndex env oc1 meta0 files).meta, [], [], [], [], [],
          some (incrementalIndex env oc1 meta0 files).meta, true⟩ :=
  incrementalIndex_noop env oc2 _ files
    (incrementalIndex_get_meta env oc1 meta0 files hN)
    (incrementalIndex_keys_sub env oc1 meta0 files)

/-- Witness for C2: the concrete first run leaves a metadata state on which
the second run does nothing. -/
theorem incrementalIndex_idempotent_witness :
    (vaultPaths filesW).Nodup ∧
      incrementalIndex envW ⟨true, true, true⟩
          (incrementalIndex envW ⟨true, true, true⟩ metaW filesW).meta filesW
        = ⟨(incrementalIndex envW ⟨true, true, true⟩ metaW filesW).meta, [], [], [], [], [],
            some (incrementalIndex envW ⟨true, true, true⟩ metaW filesW).meta, true⟩ :=
  ⟨by decide, incrementalIndex_idempotent envW ⟨true, true, true⟩ ⟨true, true, true⟩
    metaW filesW (by decide)⟩

theorem waitAux_const_failed (taskUid : Nat) (msg : String) :
    ∀ (fuel attempts : Nat),
      waitAux taskUid (fun _ => PollResult.failed msg) attempts fuel
        = (Except.error (timeoutMsg taskUid), attempts + fuel) := by
  intro fuel
  induction fuel with
  | zero => intro attempts; simp [waitAux]
  | succ n ih =>
      intro attempts
      have h1 : waitAux taskUid (fun _ => PollResult.failed msg) attempts (n + 1)
          = waitAux taskUid (fun _ => PollResult.failed msg) (attempts + 1) n := rfl
      have h2 : attempts + 1 + n = attempts + (n + 1) := by omega
      rw [h1, ih (attempts + 1), h2]

/-- C3: a task whose every poll reports the failed status is not terminated
on - the waiter re-polls it against the whole attempt budget (600 polls) and
finally reports the timeout message instead of propagating the
remote-reported error: the throw for a failed status sits inside the loop's
own try block and is swallowed by its catch. -/
theorem waitForTask_failed_swallowed :
    waitForTask 7 (fun _ => PollResult.failed "boom")
      = (Except.error (timeoutMsg 7), 600) ∧
    timeoutMsg 7 = "Task 7 did not complete within 600 seconds" ∧
    timeoutMsg 7 ≠ "Task failed: boom" := by
  refine ⟨?_, by decide, by decide⟩
  rw [waitForTask, waitAux_const_failed]

/-- C5 counterexample: a present-but-corrupt metadata record does not stop
the engine: loadMetadata returns normally after surfacing an error notice,
and the resulting mapping is empty - indistinguishable from the absent
(first-run) case - so the engine proceeds with empty metadata state. -/
theorem loadMetadata_corrupt_counterexample :
    loadMetadata [] (MetadataRecord.corrupt "not json") = ⟨[], true⟩ ∧
    (loadMetadata [] (MetadataRecord.corrupt "not json")).meta
      = (loadMetadata [] MetadataRecord.absent).meta :=
  ⟨rfl, rfl⟩

/-- C5 amended: loading never fails. An absent record leaves the in-memory
mapping untouched (empty at startup) with no error; a corrupt record also
leaves the mapping untouched but surfaces an error notice and returns
normally, so the engine proceeds rather than stopping; a valid record
rebuilds the mapping without surfacing an error. -/
theorem loadMetadata_never_fails (prev : MetaMap) (raw : String)
    (entries : List FileMetadata) :
    loadMetadata prev MetadataRecord.absent = ⟨prev, false⟩ ∧
    loadMetadata prev (MetadataRecord.corrupt raw) = ⟨prev, true⟩ ∧
    (loadMetadata prev (MetadataRecord.valid entries)).errorShown = false :=
  ⟨rfl, rfl, rfl⟩

/-- C6 counterexample: two distinct paths yield the same document id - the
placeholder substitution merges a dot and a space into the same underscore,
so parseDocument identity is not injective on paths. -/
theorem parseDocument_id_collision :
    (parseDocument envW ⟨"a.md", "a"⟩ "x").id
      = (parseDocument envW ⟨"a md", "a"⟩ "y").id ∧
    ("a.md" : String) ≠ "a md" := by
  exact ⟨by decide, by decide⟩

/-- C6 amended: the document id is a pure function of the path alone - the
same path yields the same id for any content and any collaborator
environment - but it is not injective: the placeholder substitution can
merge two distinct paths into one id. -/
theorem parseDocument_id_pure_not_injective :
    (∀ (env env' : Env) (f f' : TFile) (c c' : String), f.path = f'.path →
      (parseDocument env f c).id = (parseDocument env' f' c').id) ∧
    ¬ Function.Injective sanitizeId := by
  constructor
  · intro env env' f f' c c' h
    rw [parseDocument_id, parseDocument_id, h]
  · intro hinj
    have h := hinj (show sanitizeId "a.md" = sanitizeId "a md" by decide)
    exact absurd h (by decide)

/-- Witness for C6's purity part at two different environments and
contents over one path. -/
theorem parseDocument_id_pure_witness :
    (⟨"n.md", "n"⟩ : TFile).path = (⟨"n.md", "m"⟩ : TFile).path ∧
    (parseDocument envW ⟨"n.md", "n"⟩ "c1").id
      = (parseDocument ⟨fun _ => "h", fun _ => none, fun _ => none, 9⟩
          ⟨"n.md", "m"⟩ "c2").id :=
  ⟨rfl, parseDocument_id_pure_not_injective.1 envW
    ⟨fun _ => "h", fun _ => none, fun _ => none, 9⟩
    ⟨"n.md", "n"⟩ ⟨"n.md", "m"⟩ "c1" "c2" rfl⟩

/-- C7: the incremental cycle's delete batch is keyed by the stored
meilisearchId (concrete run: the stale entry's remoteId gone_md is what is
submitted), but the delete-event handler of main.ts passes the raw vault
path to deleteDocuments; since every markdown path contains a dot, the
sanitized remote id always differs from the path, so the single-document
delete is not keyed by the stored remote identity. -/
theorem removeFromIndex_keyed_by_path :
    (incrementalIndex envW ⟨true, true, true⟩
        [("gone.md", ⟨"gone.md", "x", "gone_md", 0⟩)] []).calls
      = [RemoteCall.deleteDocuments ["gone_md"]] ∧
    (removeFromIndex [("a.md", ⟨"a.md", "h", sanitizeId "a.md", 0⟩)]
        ⟨"a.md", "a"⟩).call
      = RemoteCall.deleteDocuments ["a.md"] ∧
    sanitizeId "a.md" = "a_md" ∧ ("a.md" : String) ≠ "a_md" := by
  exact ⟨by decide, rfl, by decide, by decide⟩

/-- C8: parsing always produces a document and never fails. When the header
region does not match, the frontmatter is empty and the content is the full
text; when it matches, the content is the body with the header stripped, the
frontmatter is the parsed mapping - or empty when the YAML parser throws, in
which case the diagnostic is surfaced rather than an error raised. -/
theorem parseDocument_total_fallback (env : Env) (file : TFile) (content : String) :
    (match env.matchFm content with
     | none =>
        (parseDocument env file content).frontmatter = [] ∧
        (parseDocument env file content).content = content
     | some (fmc, body) =>
        (parseDocument env file content).content = body ∧
        (parseDocument env file content).frontmatter = (env.parseYaml fmc).getD [] ∧
        (parseWarns env content = true ↔ env.parseYaml fmc = none)) := by
  cases hm : env.matchFm content with
  | none => exact ⟨by simp [parseDocument, hm], by simp [parseDocument, hm]⟩
  | some pr =>
      obtain ⟨fmc, body⟩ := pr
      refine ⟨?_, ?_, ?_⟩ <;>
        cases hy : env.parseYaml fmc <;>
          simp [parseDocument, parseWarns, hm, hy]

theorem fullScan_docs (env : Env) :
    ∀ (files : List VFile) (m : MetaMap),
      (fullScan env files m).1 = files.map fun f => parseDocument env f.file f.content := by
  intro files
  induction files with
  | nil => intro m; simp [fullScan]
  | cons f fs ih => intro m; simp [fullScan, ih]

theorem map_isEmpty_eq {α β : Type} (g : α → β) (l : List α) :
    (l.map g).isEmpty = l.isEmpty := by
  cases l <;> simp

/-- C9: in full-reindex mode the remote clear is the first submitted call,
and the in-memory reset precedes document processing - once clear succeeds
the whole run is independent of the prior metadata; every local document is
parsed and treated as added, submitted in one batch after the clear; and
when the clear task fails the cycle aborts with no documents parsed or
submitted and the metadata mapping untouched. -/
theorem fullIndex_clear_semantics (env : Env) (i : Bool) (meta0 : MetaMap)
    (files : List VFile) :
    ((fullIndex env false i meta0 files).calls = [RemoteCall.clearIndex] ∧
     (fullIndex env false i meta0 files).meta = meta0 ∧
     (fullIndex env false i meta0 files).docs = [] ∧
     (fullIndex env false i meta0 files).savedMeta = none) ∧
    (fullIndex env true i meta0 files = fullIndex env true i [] files) ∧
    (fullIndex env true i meta0 files).docs
      = files.map (fun f => parseDocument env f.file f.content) ∧
    (fullIndex env true i meta0 files).calls
      = (if files.isEmpty then [RemoteCall.clearIndex]
         else [RemoteCall.clearIndex,
          RemoteCall.indexDocuments ((fullIndex env true i meta0 files).docs)]) := by
  refine ⟨⟨rfl, rfl, rfl, rfl⟩, rfl, ?_, ?_⟩
  · cases files with
    | nil => cases i <;> rfl
    | cons f fs =>
        have hE : (fullScan env (f :: fs) []).1.isEmpty = false := by
          rw [fullScan_docs]; rfl
        cases i <;> simp [fullIndex, hE, fullScan_docs]
  · cases files with
    | nil => cases i <;> rfl
    | cons f fs =>
        have hE : (fullScan env (f :: fs) []).1.isEmpty = false := by
          rw [fullScan_docs]; rfl
        cases i <;> simp [fullIndex, hE]

theorem foldl_set_inv (entries : List FileMetadata) :
    ∀ m : MetaMap, MetaMap.Inv m →
      MetaMap.Inv (entries.foldl (fun m e => MetaMap.set m e.path e) m) := by
  induction entries with
  | nil => intro m hm; exact hm
  | cons e es ih => intro m hm; exact ih _ (hm.set rfl)

theorem fullScan_inv (env : Env) :
    ∀ (files : List VFile) (m : MetaMap), MetaMap.Inv m →
      MetaMap.Inv (fullScan env files m).2 := by
  intro files
  induction files with
  | nil => intro m hm; exact hm
  | cons f fs ih => intro m hm; exact ih _ (hm.set rfl)

theorem loadMetadata_inv (prev : MetaMap) (rcd : MetadataRecord)
    (h : MetaMap.Inv prev) : MetaMap.Inv (loadMetadata prev rcd).meta := by
  cases rcd with
  | absent => exact h
  | corrupt _ => exact h
  | valid entries => exact foldl_set_inv entries [] (fun e he => absurd he (by simp))

theorem incrementalIndex_inv (env : Env) (oc : RemoteOutcomes) (meta0 : MetaMap)
    (files : List VFile) (h : MetaMap.Inv meta0) :
    MetaMap.Inv (incrementalIndex env oc meta0 files).meta :=
  (scanFiles_inv env files meta0 h).filter _

theorem fullIndex_inv (env : Env) (clearOk indexOk : Bool) (meta0 : MetaMap)
    (files : List VFile) (h : MetaMap.Inv meta0) :
    MetaMap.Inv (fullIndex env clearOk indexOk meta0 files).meta := by
  cases clearOk with
  | false => exact h
  | true =>
      have hscan : MetaMap.Inv (fullScan env files []).2 :=
        fullScan_inv env files [] (fun e he => absurd he (by simp))
      cases indexOk <;> by_cases hE : (fullScan env files []).1.isEmpty <;>
        simp [fullIndex, hE] <;> exact hscan

/-- C10: the in-memory metadata mapping stores every entry under its own
path: after loading any record and after any incremental or full cycle, for
every path present in the mapping the entry retrieved at that path has its
path field equal to that path. -/
theorem metadata_key_invariant (env : Env) (oc : RemoteOutcomes)
    (clearOk indexOk : Bool) (meta0 : MetaMap) (rcd : MetadataRecord)
    (files : List VFile) (h : MetaMap.Inv meta0) :
    MetaMap.Inv (loadMetadata meta0 rcd).meta ∧
    MetaMap.Inv (incrementalIndex env oc meta0 files).meta ∧
    MetaMap.Inv (fullIndex env clearOk indexOk meta0 files).meta :=
  ⟨loadMetadata_inv meta0 rcd h, incrementalIndex_inv env oc meta0 files h,
    fullIndex_inv env clearOk indexOk meta0 files h⟩

/-- Witness for C10 at a concrete record, vault and prior mapping. -/
theorem metadata_key_invariant_witness :
    MetaMap.Inv metaW ∧
      (MetaMap.Inv (loadMetadata metaW
          (MetadataRecord.valid [⟨"a.md", "h", "a_md", 0⟩])).meta ∧
       MetaMap.Inv (incrementalIndex envW ⟨true, true, true⟩ metaW filesW).meta ∧
       MetaMap.Inv (fullIndex envW true true metaW filesW).meta) :=
  ⟨(by decide : ∀ e ∈ metaW, e.2.path = e.1),
    metadata_key_invariant envW ⟨true, true, true⟩ true true metaW
      (MetadataRecord.valid [⟨"a.md", "h", "a_md", 0⟩]) filesW
      (by decide : ∀ e ∈ metaW, e.2.path = e.1)⟩

theorem submitPhase_add_fails (dels : List String) (adds upds : List DocumentData)
    (h : adds ≠ []) :
    submitPhase dels adds upds ⟨true, false, true⟩
      = ((if dels.isEmpty then [] else [RemoteCall.deleteDocuments dels])
          ++ [RemoteCall.indexDocuments adds], false) := by
  have hA : adds.isEmpty = false := by
    cases adds with
    | nil => exact absurd rfl h
    | cons a l => rfl
  simp [submitPhase, hA]

theorem incrementalIndex_calls_eq (env : Env) (oc : RemoteOutcomes)
    (meta0 : MetaMap) (files : List VFile) :
    (incrementalIndex env oc meta0 files).calls
      = (submitPhase (incrementalIndex env oc meta0 files).deletedIds
          (incrementalIndex env oc meta0 files).addedDocs
          (incrementalIndex env oc meta0 files).updatedDocs oc).1 := rfl

theorem incrementalIndex_ok_eq (env : Env) (oc : RemoteOutcomes)
    (meta0 : MetaMap) (files : List VFile) :
    (incrementalIndex env oc meta0 files).ok
      = (submitPhase (incrementalIndex env oc meta0 files).deletedIds
          (incrementalIndex env oc meta0 files).addedDocs
          (incrementalIndex env oc meta0 files).updatedDocs oc).2 := rfl

theorem incrementalIndex_savedMeta_eq (env : Env) (oc : RemoteOutcomes)
    (meta0 : MetaMap) (files : List VFile) :
    (incrementalIndex env oc meta0 files).savedMeta
      = (if (submitPhase (incrementalIndex env oc meta0 files).deletedIds
            (incrementalIndex env oc meta0 files).addedDocs
            (incrementalIndex env oc meta0 files).updatedDocs oc).2
         then some (incrementalIndex env oc meta0 files).meta else none) := rfl

/-- C4 counterexample: in a cycle with a succeeding delete batch, a failing
add batch and a pending update batch, the in-memory entry for the failed
batch's document has been created anyway, and nothing is persisted at the
end of the cycle - the confirmed delete batch's metadata removal does not
reach disk. -/
theorem incrementalIndex_partial_failure_counterexample :
    (incrementalIndex envW ⟨true, false, true⟩ metaC4 filesC4).savedMeta = none ∧
    MetaMap.get (incrementalIndex envW ⟨true, false, true⟩ metaC4 filesC4).meta "b.md"
      ≠ MetaMap.get metaC4 "b.md" := by
  exact ⟨by decide, by decide⟩

/-- C4 amended: when the add batch's submission fails, the cycle is reported
failed and no later batch is attempted (the calls end at the failed add
batch), but the in-memory metadata has already been updated for every
classified document during the scan - it equals the metadata of a fully
successful cycle - and the mapping is not persisted at the end of the failed
cycle. -/
theorem incrementalIndex_failed_batch (env : Env) (meta0 : MetaMap)
    (files : List VFile)
    (hadds : (incrementalIndex env ⟨true, false, true⟩ meta0 files).addedDocs ≠ []) :
    (incrementalIndex env ⟨true, false, true⟩ meta0 files).ok = false ∧
    (incrementalIndex env ⟨true, false, true⟩ meta0 files).savedMeta = none ∧
    (incrementalIndex env ⟨true, false, true⟩ meta0 files).meta
      = (incrementalIndex env ⟨true, true, true⟩ meta0 files).meta ∧
    (incrementalIndex env ⟨true, false, true⟩ meta0 files).calls
      = (if (incrementalIndex env ⟨true, false, true⟩ meta0 files).deletedIds.isEmpty
         then []
         else [RemoteCall.deleteDocuments
            (incrementalIndex env ⟨true, false, true⟩ meta0 files).deletedIds])
        ++ [RemoteCall.indexDocuments
            (incrementalIndex env ⟨true, false, true⟩ meta0 files).addedDocs] := by
  refine ⟨?_, ?_, rfl, ?_⟩
  · rw [incrementalIndex_ok_eq, submitPhase_add_fails _ _ _ hadds]
  · rw [incrementalIndex_savedMeta_eq, submitPhase_add_fails _ _ _ hadds]
    rfl
  · rw [incrementalIndex_calls_eq, submitPhase_add_fails _ _ _ hadds]

/-- Witness for C4's amended claim at the concrete partial-failure
scenario. -/
theorem incrementalIndex_failed_batch_witness :
    (incrementalIndex envW ⟨true, false, true⟩ metaC4 filesC4).addedDocs ≠ [] ∧
      ((incrementalIndex envW ⟨true, false, true⟩ metaC4 filesC4).ok = false ∧
       (incrementalIndex envW ⟨true, false, true⟩ metaC4 filesC4).savedMeta = none ∧
       (incrementalIndex envW ⟨true, false, true⟩ metaC4 filesC4).meta
         = (incrementalIndex envW ⟨true, true, true⟩ metaC4 filesC4).meta ∧
       (incrementalIndex envW ⟨true, false, true⟩ metaC4 filesC4).calls
         = (if (incrementalIndex envW ⟨true, false, true⟩ metaC4 filesC4).deletedIds.isEmpty
            then []
            else [RemoteCall.deleteDocuments
               (incrementalIndex envW ⟨true, false, true⟩ metaC4 filesC4).deletedIds])
           ++ [RemoteCall.indexDocuments
               (incrementalIndex envW ⟨true, false, true⟩ metaC4 filesC4).addedDocs]) :=
  ⟨by decide, incrementalIndex_failed_batch envW metaC4 filesC4 (by decide)⟩

end MeilisearchMd
